import Mathlib

/-!
# Verification of the VIT-AP CGPA calculator core pipeline

A shallow embedding of the payload pipeline of the CGPA calculator:
the base64url/gzip transport codec, the strict-JSON / pseudo-JSON recovery
parser, the course validator/normalizer, the CGPA aggregator and the
semester grouping, together with theorems checking the natural-language
specification against this embedding.

Conventions:
* byte sequences are `List Nat` with every entry `< 256`;
* JavaScript numbers are `ℚ` (the code only performs exact decimal
  arithmetic on the inputs the specification talks about; IEEE-754
  rounding and `NaN`/`Infinity` propagation are outside the model);
* the gzip library (`zlib`'s `gzipSync`/`gunzipSync`) is an abstract
  parameter constrained by its documented inverse contract;
* fallible steps return `Option`/`Except`.
-/

set_option maxRecDepth 400000

/-! ## Grade table and CGPA aggregation (`src/app/api/calculate/route.ts`) -/

/-- The `gradePoints` object from `src/app/api/calculate/route.ts` together
with the `gradePoints[course.grade] || 0` read used at every call site:
a key outside the table yields `0`. -/
def gradePoints (g : String) : ℚ :=
  if g = "S" then 10 else if g = "A" then 9 else if g = "B" then 8
  else if g = "C" then 7 else if g = "D" then 6 else if g = "E" then 5
  else if g = "F" then 0 else if g = "P" then 0 else 0

/-- The keys of the `gradePoints` object, as tested by
`gradePoints.hasOwnProperty(c.grade)` in `filterValidCourses`. -/
def gradeKeys : List String := ["S", "A", "B", "C", "D", "E", "F", "P"]

/-- The `CourseData` record of `src/app/api/calculate/route.ts`. -/
structure CourseData where
  course_title : String
  credits : ℚ
  grade : String
deriving DecidableEq, Repr

/-- `calculateCGPA` from `src/app/api/calculate/route.ts`: drop `"P"`
grades, return `0` on an empty remainder, otherwise divide the summed
weighted grade points by the summed credits (guarded by
`totalCredits > 0 ? ... : 0`). -/
def calculateCGPA (courses : List CourseData) : ℚ :=
  let validCourses := courses.filter (fun c => c.grade != "P")
  if validCourses.length = 0 then 0
  else
    let totalGradePoints :=
      validCourses.foldl (fun sum c => sum + gradePoints c.grade * c.credits) 0
    let totalCredits := validCourses.foldl (fun sum c => sum + c.credits) 0
    if 0 < totalCredits then totalGradePoints / totalCredits else 0

/-! ### Helper lemmas about the aggregator -/

theorem foldl_add_eq_sum {α : Type} (f : α → ℚ) :
    ∀ (l : List α) (a : ℚ), l.foldl (fun s c => s + f c) a = a + (l.map f).sum := by
  intro l
  induction l with
  | nil => intro a; simp
  | cons x t ih => intro a; simp [List.foldl_cons, ih]; ring

theorem gradePoints_nonneg (g : String) : 0 ≤ gradePoints g := by
  unfold gradePoints; split_ifs <;> norm_num

theorem gradePoints_le_ten (g : String) : gradePoints g ≤ 10 := by
  unfold gradePoints; split_ifs <;> norm_num

theorem credits_sum_nonneg (l : List CourseData) (h : ∀ c ∈ l, 0 ≤ c.credits) :
    0 ≤ (l.map (·.credits)).sum := by
  induction l with
  | nil => simp
  | cons x t ih =>
      simp only [List.map_cons, List.sum_cons]
      have hx := h x (by simp)
      have ht := ih (fun c hc => h c (by simp [hc]))
      linarith

theorem gp_sum_nonneg (l : List CourseData) (h : ∀ c ∈ l, 0 ≤ c.credits) :
    0 ≤ (l.map (fun c => gradePoints c.grade * c.credits)).sum := by
  induction l with
  | nil => simp
  | cons x t ih =>
      simp only [List.map_cons, List.sum_cons]
      have hx := mul_nonneg (gradePoints_nonneg x.grade) (h x (by simp))
      have ht := ih (fun c hc => h c (by simp [hc]))
      linarith

theorem gp_sum_le_ten_mul (l : List CourseData) (h : ∀ c ∈ l, 0 ≤ c.credits) :
    (l.map (fun c => gradePoints c.grade * c.credits)).sum ≤
      10 * (l.map (·.credits)).sum := by
  induction l with
  | nil => simp
  | cons x t ih =>
      simp only [List.map_cons, List.sum_cons]
      have hx : gradePoints x.grade * x.credits ≤ 10 * x.credits :=
        mul_le_mul_of_nonneg_right (gradePoints_le_ten x.grade) (h x (by simp))
      have ht := ih (fun c hc => h c (by simp [hc]))
      linarith

/-- Closed form of `calculateCGPA`: the two `foldl` accumulations rewritten
as list sums (used by the claim theorems). -/
theorem calculateCGPA_eq_sums (courses : List CourseData) :
    calculateCGPA courses =
      (let valid := courses.filter (fun c => c.grade != "P")
       if valid.length = 0 then 0
       else if 0 < (valid.map (·.credits)).sum then
         ((valid.map (fun c => gradePoints c.grade * c.credits)).sum) /
           ((valid.map (·.credits)).sum)
       else 0) := by
  unfold calculateCGPA
  simp only [foldl_add_eq_sum, zero_add]

/-! ## Claim C2: the weighted average (CGPA) -/

/-- The property asserted by claim C2, instantiated at a course list:
the fixed grade table, the P-filter/empty/quotient behaviour of
`calculateCGPA`, and the two singled-out edge cases. -/
def weightedAverageClaim (courses : List CourseData) : Prop :=
  (gradePoints "S" = 10 ∧ gradePoints "A" = 9 ∧ gradePoints "B" = 8 ∧
    gradePoints "C" = 7 ∧ gradePoints "D" = 6 ∧ gradePoints "E" = 5 ∧
    gradePoints "F" = 0) ∧
  (courses.filter (fun c => c.grade != "P") = [] → calculateCGPA courses = 0) ∧
  (courses.filter (fun c => c.grade != "P") ≠ [] →
    calculateCGPA courses =
      ((courses.filter (fun c => c.grade != "P")).map
          (fun c => gradePoints c.grade * c.credits)).sum /
        ((courses.filter (fun c => c.grade != "P")).map (·.credits)).sum) ∧
  calculateCGPA [] = 0 ∧
  calculateCGPA [{ course_title := "t", credits := 4, grade := "P" }] = 0

/-- C2: for validated courses (non-negative credits), `calculateCGPA`
discards `"P"` grades, returns `0` when nothing remains, and otherwise is
the credit-weighted average of the fixed grade table; in particular the
empty list and a single 4-credit `"P"` course both give `0`. -/
theorem calculateCGPA_weightedAverage (courses : List CourseData)
    (h : ∀ c ∈ courses, 0 ≤ c.credits) : weightedAverageClaim courses := by
  refine ⟨by with_unfolding_all decide, ?_, ?_, by with_unfolding_all rfl,
    by with_unfolding_all rfl⟩
  · intro he
    rw [calculateCGPA_eq_sums]
    simp [he]
  · intro hne
    rw [calculateCGPA_eq_sums]
    have hlen : ¬((courses.filter (fun c => c.grade != "P")).length = 0) := by
      simpa [List.length_eq_zero] using hne
    have hcred : ∀ c ∈ courses.filter (fun c => c.grade != "P"), 0 ≤ c.credits :=
      fun c hc => h c (List.mem_of_mem_filter hc)
    by_cases hpos :
        0 < ((courses.filter (fun c => c.grade != "P")).map (·.credits)).sum
    · simp [hlen, hpos]
    · have h0 : ((courses.filter (fun c => c.grade != "P")).map (·.credits)).sum = 0 :=
        le_antisymm (not_lt.mp hpos) (credits_sum_nonneg _ hcred)
      simp [hlen, hpos, h0]

/-- Witness for C2 at a concrete validated course list. -/
theorem calculateCGPA_weightedAverage_witness :
    (∀ c ∈ ([{ course_title := "a", credits := 4, grade := "A" },
             { course_title := "b", credits := 2, grade := "B" }] : List CourseData),
        0 ≤ c.credits) ∧
    weightedAverageClaim
      [{ course_title := "a", credits := 4, grade := "A" },
       { course_title := "b", credits := 2, grade := "B" }] :=
  ⟨by decide, calculateCGPA_weightedAverage _ (by decide)⟩

/-! ## Claim C9: range invariant of the weighted average -/

/-- C9: under the validator's postcondition (non-negative credits, grades
inside the fixed grade set) the computed weighted average lies in `[0, 10]`. -/
theorem calculateCGPA_range (courses : List CourseData)
    (hc : ∀ c ∈ courses, 0 ≤ c.credits)
    (_hg : ∀ c ∈ courses, c.grade ∈ gradeKeys) :
    0 ≤ calculateCGPA courses ∧ calculateCGPA courses ≤ 10 := by
  rw [calculateCGPA_eq_sums]
  have hcred : ∀ c ∈ courses.filter (fun c => c.grade != "P"), 0 ≤ c.credits :=
    fun c hcm => hc c (List.mem_of_mem_filter hcm)
  by_cases hlen : (courses.filter (fun c => c.grade != "P")).length = 0
  · simp [hlen]
  · by_cases hpos :
        0 < ((courses.filter (fun c => c.grade != "P")).map (·.credits)).sum
    · have hgp := gp_sum_nonneg _ hcred
      have hub := gp_sum_le_ten_mul _ hcred
      constructor
      · simp only [hlen, hpos, if_false, if_true]
        exact div_nonneg hgp (le_of_lt hpos)
      · simp only [hlen, hpos, if_false, if_true]
        rw [div_le_iff₀ hpos]
        linarith
    · simp [hlen, hpos]

/-- Witness for C9 at a concrete validated course list. -/
theorem calculateCGPA_range_witness :
    ((∀ c ∈ ([{ course_title := "a", credits := 3, grade := "S" },
              { course_title := "b", credits := 1, grade := "F" }] : List CourseData),
        0 ≤ c.credits) ∧
     (∀ c ∈ ([{ course_title := "a", credits := 3, grade := "S" },
              { course_title := "b", credits := 1, grade := "F" }] : List CourseData),
        c.grade ∈ gradeKeys)) ∧
    (0 ≤ calculateCGPA
        [{ course_title := "a", credits := 3, grade := "S" },
         { course_title := "b", credits := 1, grade := "F" }] ∧
      calculateCGPA
        [{ course_title := "a", credits := 3, grade := "S" },
         { course_title := "b", credits := 1, grade := "F" }] ≤ 10) :=
  ⟨⟨by decide, by decide⟩, calculateCGPA_range _ (by decide) (by decide)⟩

/-! ## Binary transport codec (claims C1, C7)

The repository's own transport code is only the URL-safe character
substitution and padding arithmetic in `base64UrlEncode`
(`src/app/api/gpa/route.ts`) and `base64UrlDecode`
(`src/app/api/calculate/route.ts`); the base64 codec itself
(`Buffer.toString("base64")` / `Buffer.from(str, "base64")`) and gzip
(`zlib`) are library collaborators. -/

/-- The standard base64 alphabet, indices 0–63. -/
def b64Alphabet : List Char :=
  "ABCDEFGHIJKLMNOPQRSTUVWXYZabcdefghijklmnopqrstuvwxyz0123456789+/".toList

/-- Character for a sextet value. -/
def b64Char (n : Nat) : Char := b64Alphabet.getD n 'A'

def b64IndexAux : List Char → Char → Nat → Option Nat
  | [], _, _ => none
  | a :: t, c, i => if a = c then some i else b64IndexAux t c (i + 1)

/-- Sextet value of an alphabet character (`none` for a character outside
the alphabet, including `'='`). -/
def b64Index (c : Char) : Option Nat := b64IndexAux b64Alphabet c 0

/-- Modelled from the spec: the "standard base64 codec" library
collaborator (`Buffer.toString("base64")`), which is not part of the
repository. RFC 4648 §4 encoding of a byte sequence, `'='`-padded. -/
def b64EncodeBytes : List Nat → List Char
  | [] => []
  | [b0] => [b64Char (b0 / 4), b64Char (b0 % 4 * 16), '=', '=']
  | [b0, b1] =>
      [b64Char (b0 / 4), b64Char (b0 % 4 * 16 + b1 / 16), b64Char (b1 % 16 * 4), '=']
  | b0 :: b1 :: b2 :: rest =>
      b64Char (b0 / 4) :: b64Char (b0 % 4 * 16 + b1 / 16) ::
        b64Char (b1 % 16 * 4 + b2 / 64) :: b64Char (b2 % 64) :: b64EncodeBytes rest

/-- Modelled from the spec: the "standard base64 codec" library
collaborator in the decoding direction (`Buffer.from(str, "base64")`),
as a strict RFC 4648 decoder of a padded base64 string: four characters
per group, `'='` only as final padding, failure on any character outside
the alphabet. -/
def b64DecodeChars : List Char → Option (List Nat)
  | [] => some []
  | c0 :: c1 :: c2 :: c3 :: rest =>
      if c2 = '=' ∧ c3 = '=' ∧ rest = [] then do
        let n0 ← b64Index c0
        let n1 ← b64Index c1
        pure [n0 * 4 + n1 / 16]
      else if c3 = '=' ∧ rest = [] then do
        let n0 ← b64Index c0
        let n1 ← b64Index c1
        let n2 ← b64Index c2
        pure [n0 * 4 + n1 / 16, n1 % 16 * 16 + n2 / 4]
      else do
        let n0 ← b64Index c0
        let n1 ← b64Index c1
        let n2 ← b64Index c2
        let n3 ← b64Index c3
        let tail ← b64DecodeChars rest
        pure ((n0 * 4 + n1 / 16) :: (n1 % 16 * 16 + n2 / 4) :: (n2 % 4 * 64 + n3) :: tail)
  | _ => none

/-- The `+`→`-` substitution of `base64UrlEncode`. -/
def urlSub1 (c : Char) : Char := if c = '+' then '-' else c

/-- The slash→`_` substitution of `base64UrlEncode`. -/
def urlSub2 (c : Char) : Char := if c = '/' then '_' else c

/-- The `-`→`+` substitution of `base64UrlDecode`. -/
def urlUnsub1 (c : Char) : Char := if c = '-' then '+' else c

/-- The `_`→slash substitution of `base64UrlDecode`. -/
def urlUnsub2 (c : Char) : Char := if c = '_' then '/' else c

/-- `base64UrlEncode` from `src/app/api/gpa/route.ts`: base64, then the
three global replacements `+`→`-`, `/`→`_`, `=`→(removed). -/
def base64UrlEncode (bytes : List Nat) : List Char :=
  (((b64EncodeBytes bytes).map urlSub1).map urlSub2).filter (fun c => c != '=')

/-- `base64UrlDecode` from `src/app/api/calculate/route.ts`: append `'='`
padding up to a multiple of four, replace `-`→`+` and `_`→`/`, then
base64-decode. -/
def base64UrlDecode (s : List Char) : Option (List Nat) :=
  let padded := s ++ List.replicate ((4 - s.length % 4) % 4) '='
  let replaced := (padded.map urlUnsub1).map urlUnsub2
  b64DecodeChars replaced

/-! ### Round-trip of the base64 layer -/

theorem b64Alphabet_length : b64Alphabet.length = 64 := by decide

theorem b64Index_b64Char (n : Nat) (h : n < 64) : b64Index (b64Char n) = some n := by
  have H : ∀ m : Fin 64, b64Index (b64Char m.val) = some m.val := by decide
  exact H ⟨n, h⟩

theorem b64Char_mem_alphabet (n : Nat) : b64Char n ∈ b64Alphabet := by
  by_cases h : n < 64
  · have H : ∀ m : Fin 64, b64Char m.val ∈ b64Alphabet := by decide
    exact H ⟨n, h⟩
  · unfold b64Char
    rw [List.getD_eq_default]
    · decide
    · rw [b64Alphabet_length]
      omega

theorem b64Char_ne_pad (n : Nat) : b64Char n ≠ '=' := by
  by_cases h : n < 64
  · have H : ∀ m : Fin 64, b64Char m.val ≠ '=' := by decide
    exact H ⟨n, h⟩
  · unfold b64Char
    rw [List.getD_eq_default]
    · decide
    · rw [b64Alphabet_length]
      omega

theorem b64DecodeChars_two_pad (c0 c1 : Char) :
    b64DecodeChars [c0, c1, '=', '='] =
      (do
        let n0 ← b64Index c0
        let n1 ← b64Index c1
        pure [n0 * 4 + n1 / 16]) := by
  simp [b64DecodeChars]

theorem b64DecodeChars_one_pad (c0 c1 c2 : Char) (h : c2 ≠ '=') :
    b64DecodeChars [c0, c1, c2, '='] =
      (do
        let n0 ← b64Index c0
        let n1 ← b64Index c1
        let n2 ← b64Index c2
        pure [n0 * 4 + n1 / 16, n1 % 16 * 16 + n2 / 4]) := by
  simp [b64DecodeChars, h]

theorem b64DecodeChars_chunk (c0 c1 c2 c3 : Char) (rest : List Char) (h : c3 ≠ '=') :
    b64DecodeChars (c0 :: c1 :: c2 :: c3 :: rest) =
      (do
        let n0 ← b64Index c0
        let n1 ← b64Index c1
        let n2 ← b64Index c2
        let n3 ← b64Index c3
        let tail ← b64DecodeChars rest
        pure ((n0 * 4 + n1 / 16) :: (n1 % 16 * 16 + n2 / 4) ::
          (n2 % 4 * 64 + n3) :: tail)) := by
  simp [b64DecodeChars, h]

/-- Every base64 encoding splits as alphabet characters followed by at
most two `'='`, with total length a multiple of four. -/
theorem b64EncodeBytes_structure (bytes : List Nat) :
    ∃ core k, b64EncodeBytes bytes = core ++ List.replicate k '=' ∧ k ≤ 2 ∧
      (core.length + k) % 4 = 0 ∧ ∀ c ∈ core, c ∈ b64Alphabet := by
  suffices H : ∀ n (bytes : List Nat), bytes.length ≤ n →
      ∃ core k, b64EncodeBytes bytes = core ++ List.replicate k '=' ∧ k ≤ 2 ∧
        (core.length + k) % 4 = 0 ∧ ∀ c ∈ core, c ∈ b64Alphabet from
    H bytes.length bytes le_rfl
  intro n
  induction n with
  | zero =>
      intro bytes hb
      have : bytes = [] := List.eq_nil_of_length_eq_zero (Nat.le_zero.mp hb)
      subst this
      exact ⟨[], 0, by simp [b64EncodeBytes]⟩
  | succ n ih =>
      intro bytes hb
      match bytes with
      | [] => exact ⟨[], 0, by simp [b64EncodeBytes]⟩
      | [b0] =>
          refine ⟨[b64Char (b0 / 4), b64Char (b0 % 4 * 16)], 2, rfl, by norm_num,
            by norm_num, ?_⟩
          intro c hc
          simp only [List.mem_cons, List.not_mem_nil, or_false] at hc
          rcases hc with h | h
          · exact h ▸ b64Char_mem_alphabet _
          · exact h ▸ b64Char_mem_alphabet _
      | [b0, b1] =>
          refine ⟨[b64Char (b0 / 4), b64Char (b0 % 4 * 16 + b1 / 16),
            b64Char (b1 % 16 * 4)], 1, rfl, by norm_num, by norm_num, ?_⟩
          intro c hc
          simp only [List.mem_cons, List.not_mem_nil, or_false] at hc
          rcases hc with h | h | h
          · exact h ▸ b64Char_mem_alphabet _
          · exact h ▸ b64Char_mem_alphabet _
          · exact h ▸ b64Char_mem_alphabet _
      | b0 :: b1 :: b2 :: rest =>
          obtain ⟨core, k, henc, hk, hlen, hmem⟩ :=
            ih rest (by simp only [List.length_cons] at hb; omega)
          refine ⟨b64Char (b0 / 4) :: b64Char (b0 % 4 * 16 + b1 / 16) ::
              b64Char (b1 % 16 * 4 + b2 / 64) :: b64Char (b2 % 64) :: core, k, ?_, hk,
              ?_, ?_⟩
          · simp [b64EncodeBytes, henc]
          · simp only [List.length_cons]
            omega
          · intro c hc
            simp only [List.mem_cons] at hc
            rcases hc with h | h | h | h | h
            · exact h ▸ b64Char_mem_alphabet _
            · exact h ▸ b64Char_mem_alphabet _
            · exact h ▸ b64Char_mem_alphabet _
            · exact h ▸ b64Char_mem_alphabet _
            · exact hmem c h

/-- Decoding inverts encoding on byte sequences. -/
theorem b64DecodeChars_b64EncodeBytes (bytes : List Nat) (hb : ∀ b ∈ bytes, b < 256) :
    b64DecodeChars (b64EncodeBytes bytes) = some bytes := by
  suffices H : ∀ n (bytes : List Nat), bytes.length ≤ n → (∀ b ∈ bytes, b < 256) →
      b64DecodeChars (b64EncodeBytes bytes) = some bytes from
    H bytes.length bytes le_rfl hb
  intro n
  induction n with
  | zero =>
      intro bytes hlen _
      have : bytes = [] := List.eq_nil_of_length_eq_zero (Nat.le_zero.mp hlen)
      subst this
      rfl
  | succ n ih =>
      intro bytes hlen hb
      match bytes with
      | [] => rfl
      | [b0] =>
          have h0 : b0 < 256 := hb b0 (by simp)
          show b64DecodeChars [b64Char (b0 / 4), b64Char (b0 % 4 * 16), '=', '='] = _
          rw [b64DecodeChars_two_pad, b64Index_b64Char (b0 / 4) (by omega),
            b64Index_b64Char (b0 % 4 * 16) (by omega)]
          simp
          omega
      | [b0, b1] =>
          have h0 : b0 < 256 := hb b0 (by simp)
          have h1 : b1 < 256 := hb b1 (by simp)
          show b64DecodeChars [b64Char (b0 / 4), b64Char (b0 % 4 * 16 + b1 / 16),
            b64Char (b1 % 16 * 4), '='] = _
          rw [b64DecodeChars_one_pad _ _ _ (b64Char_ne_pad _),
            b64Index_b64Char (b0 / 4) (by omega),
            b64Index_b64Char (b0 % 4 * 16 + b1 / 16) (by omega),
            b64Index_b64Char (b1 % 16 * 4) (by omega)]
          simp
          constructor <;> omega
      | b0 :: b1 :: b2 :: rest =>
          have h0 : b0 < 256 := hb b0 (by simp)
          have h1 : b1 < 256 := hb b1 (by simp)
          have h2 : b2 < 256 := hb b2 (by simp)
          have hrest : ∀ b ∈ rest, b < 256 := fun b hbm => hb b (by simp [hbm])
          have htail := ih rest (by simp only [List.length_cons] at hlen; omega) hrest
          show b64DecodeChars (b64Char (b0 / 4) :: b64Char (b0 % 4 * 16 + b1 / 16) ::
            b64Char (b1 % 16 * 4 + b2 / 64) :: b64Char (b2 % 64) ::
            b64EncodeBytes rest) = _
          rw [b64DecodeChars_chunk _ _ _ _ _ (b64Char_ne_pad _),
            b64Index_b64Char (b0 / 4) (by omega),
            b64Index_b64Char (b0 % 4 * 16 + b1 / 16) (by omega),
            b64Index_b64Char (b1 % 16 * 4 + b2 / 64) (by omega),
            b64Index_b64Char (b2 % 64) (by omega)]
          simp [htail]
          refine ⟨by omega, by omega, by omega⟩

theorem urlSub_ne_pad (c : Char) (h : c ∈ b64Alphabet) : urlSub2 (urlSub1 c) ≠ '=' := by
  have H : ∀ m ∈ b64Alphabet, urlSub2 (urlSub1 m) ≠ '=' := by decide
  exact H c h

theorem urlUnsub_urlSub (c : Char) (h : c ∈ b64Alphabet) :
    urlUnsub2 (urlUnsub1 (urlSub2 (urlSub1 c))) = c := by
  have H : ∀ m ∈ b64Alphabet, urlUnsub2 (urlUnsub1 (urlSub2 (urlSub1 m))) = m := by decide
  exact H c h

theorem urlSub_pad : urlSub2 (urlSub1 '=') = '=' := by decide

theorem urlUnsub_pad : urlUnsub2 (urlUnsub1 '=') = '=' := by decide

/-- The full URL-safe base64 layer round-trips on byte sequences. -/
theorem base64UrlDecode_base64UrlEncode (bytes : List Nat)
    (hb : ∀ b ∈ bytes, b < 256) :
    base64UrlDecode (base64UrlEncode bytes) = some bytes := by
  obtain ⟨core, k, henc, hk, hlen4, hmem⟩ := b64EncodeBytes_structure bytes
  have hstrip : base64UrlEncode bytes = (core.map urlSub1).map urlSub2 := by
    unfold base64UrlEncode
    rw [henc, List.map_append, List.map_append, List.map_replicate,
      List.map_replicate, urlSub_pad, List.filter_append]
    have h1 : ((core.map urlSub1).map urlSub2).filter (fun c => c != '=') =
        (core.map urlSub1).map urlSub2 := by
      rw [List.filter_eq_self]
      intro c hc
      simp only [List.mem_map] at hc
      obtain ⟨a, ⟨a0, ha0, rfl⟩, rfl⟩ := hc
      simpa using urlSub_ne_pad a0 (hmem a0 ha0)
    have h2 : (List.replicate k '=').filter (fun c => c != '=') = [] := by
      rw [List.filter_eq_nil_iff]
      intro c hc
      rw [List.eq_of_mem_replicate hc]
      simp
    rw [h1, h2, List.append_nil]
  rw [hstrip]
  simp only [base64UrlDecode]
  have hpadlen : (4 - ((core.map urlSub1).map urlSub2).length % 4) % 4 = k := by
    simp only [List.length_map]
    omega
  rw [hpadlen, List.map_append, List.map_append, List.map_replicate,
    List.map_replicate, urlUnsub_pad]
  have hcore : ((((core.map urlSub1).map urlSub2).map urlUnsub1).map urlUnsub2) = core := by
    rw [List.map_map, List.map_map, List.map_map]
    have hpt : ∀ c ∈ core,
        (((urlUnsub2 ∘ urlUnsub1) ∘ urlSub2) ∘ urlSub1) c = id c := by
      intro c hc
      simpa using urlUnsub_urlSub c (hmem c hc)
    rw [List.map_congr_left hpt, List.map_id]
  rw [hcore, ← henc]
  exact b64DecodeChars_b64EncodeBytes bytes hb

/-! ### Transport codec and the C1 round-trip -/

/-- Transport encoding (`POST /api/gpa`, steps 2–3): gzip-compress, then
base64url-encode.  The compressor `gzipF` abstracts `zlib`'s `gzipSync`. -/
def encodeTransport (gzipF : List Nat → List Nat) (bytes : List Nat) : List Char :=
  base64UrlEncode (gzipF bytes)

/-- The two fallible stages of transport decoding in `GET /api/calculate`. -/
inductive TransportStage
  | base64
  | gunzip
deriving DecidableEq, Repr

/-- Transport decoding with stage-tagged failure (`GET /api/calculate`,
steps 1–2): base64url-decode, then gunzip.  The decompressor `gunzipF`
abstracts `zlib`'s `gunzipSync` (`none` models a thrown error). -/
def decodeTransportStaged (gunzipF : List Nat → Option (List Nat))
    (s : List Char) : Except TransportStage (List Nat) :=
  match base64UrlDecode s with
  | none => .error .base64
  | some buf =>
      match gunzipF buf with
      | none => .error .gunzip
      | some data => .ok data

/-- Transport decoding with failures collapsed (the stage is not
observable to the client: both stages return the same response). -/
def decodeTransport (gunzipF : List Nat → Option (List Nat))
    (s : List Char) : Option (List Nat) :=
  (decodeTransportStaged gunzipF s).toOption

/-- C1: transport codec round-trip.  For any byte sequence `b` and any
gzip implementation satisfying the library contract on `b` (gunzip
inverts gzip, compressed output is bytes), decoding the transport
encoding of `b` returns exactly `b`. -/
theorem decodeTransport_encodeTransport (gzipF : List Nat → List Nat)
    (gunzipF : List Nat → Option (List Nat)) (b : List Nat)
    (hinv : gunzipF (gzipF b) = some b)
    (hbytes : ∀ x ∈ gzipF b, x < 256) :
    decodeTransport gunzipF (encodeTransport gzipF b) = some b := by
  unfold decodeTransport decodeTransportStaged encodeTransport
  rw [base64UrlDecode_base64UrlEncode (gzipF b) hbytes]
  simp [hinv, Except.toOption]

/-- Witness for C1: the identity gzip pair on a concrete byte sequence. -/
theorem decodeTransport_encodeTransport_witness :
    ((fun l => some l : List Nat → Option (List Nat)) ((fun l => l) [0, 77, 255]) =
        some [0, 77, 255] ∧
      ∀ x ∈ (fun l => l : List Nat → List Nat) [0, 77, 255], x < 256) ∧
    decodeTransport (fun l => some l)
      (encodeTransport (fun l => l) [0, 77, 255]) = some [0, 77, 255] :=
  ⟨⟨rfl, by decide⟩,
    decodeTransport_encodeTransport (fun l => l) (fun l => some l) [0, 77, 255]
      rfl (by decide)⟩

/-! ### Claim C7: transport error handling -/

/-- The uniform malformed-data client error of `GET /api/calculate`
(both the base64 catch block and the gunzip catch block return this
body with HTTP status 400). -/
def malformedDataResponse : String × Nat :=
  ("Invalid or malformed data string provided.", 400)

/-- The decode prefix of `GET /api/calculate`: staged transport decode
with every failure surfaced as the uniform malformed-data response. -/
def calculateGetDecode (gunzipF : List Nat → Option (List Nat))
    (s : List Char) : Except (String × Nat) (List Nat) :=
  (decodeTransportStaged gunzipF s).mapError (fun _ => malformedDataResponse)

/-- C7: an input that is not valid base64 (`"not-valid-!!"`) fails at the
base64 stage whatever the decompressor does; a base64-decodable input
whose bytes the decompressor rejects fails at the decompression stage;
and every staged failure is surfaced as the same uniform malformed-data
client error. -/
theorem transport_error_stages (gunzipF : List Nat → Option (List Nat)) :
    decodeTransportStaged gunzipF "not-valid-!!".toList =
        .error TransportStage.base64 ∧
    (∀ s buf, base64UrlDecode s = some buf → gunzipF buf = none →
      decodeTransportStaged gunzipF s = .error TransportStage.gunzip) ∧
    (∀ s st, decodeTransportStaged gunzipF s = .error st →
      calculateGetDecode gunzipF s = .error malformedDataResponse) := by
  refine ⟨?_, ?_, ?_⟩
  · have hdec : base64UrlDecode "not-valid-!!".toList = none := by
      with_unfolding_all decide
    unfold decodeTransportStaged
    rw [hdec]
  · intro s buf hs hg
    unfold decodeTransportStaged
    rw [hs]
    simp only []
    rw [hg]
  · intro s st hst
    unfold calculateGetDecode
    rw [hst]
    rfl

/-- Witness for C7: a decompressor that rejects everything, together with
the valid base64 input `"AAAA"` (bytes `[0, 0, 0]`). -/
theorem transport_error_stages_witness :
    (base64UrlDecode "AAAA".toList = some [0, 0, 0] ∧
      (fun _ => none : List Nat → Option (List Nat)) [0, 0, 0] = none) ∧
    (decodeTransportStaged (fun _ => none) "not-valid-!!".toList =
        .error TransportStage.base64 ∧
      decodeTransportStaged (fun _ => none) "AAAA".toList =
        .error TransportStage.gunzip ∧
      calculateGetDecode (fun _ => none) "AAAA".toList =
        .error malformedDataResponse) := by
  have h := transport_error_stages (fun _ => none)
  have hb : base64UrlDecode "AAAA".toList = some [0, 0, 0] := by
    with_unfolding_all decide
  have h2 := h.2.1 "AAAA".toList [0, 0, 0] hb rfl
  exact ⟨⟨hb, rfl⟩, h.1, h2, h.2.2 "AAAA".toList TransportStage.gunzip h2⟩

/-! ## JavaScript values, number coercion and the validator (claim C3) -/

/-- Untyped JavaScript/JSON values as they occur in the pipeline.
`NaN`/`Infinity` numbers cannot arise from the parsing paths modelled
here, so `vNum` carries an exact rational. -/
inductive JsVal
  | vNull
  | vBool (b : Bool)
  | vNum (q : ℚ)
  | vStr (s : String)
  | vArr (elems : List JsVal)
  | vObj (fields : List (String × JsVal))

/-- JavaScript whitespace (the ASCII part; enough for every string this
development evaluates). -/
def jsWhitespace (c : Char) : Bool :=
  c == ' ' || c == '\t' || c == '\n' || c == '\r' || c == '\x0b' || c == '\x0c'

/-- Decimal digits to a natural number. -/
def digitsToNat (ds : List Char) : Nat :=
  ds.foldl (fun a c => a * 10 + (c.toNat - '0'.toNat)) 0

/-- Exponent part of a JavaScript decimal literal (after the `e`/`E`):
optional sign then digits; an incomplete exponent contributes `0`
(longest-valid-prefix semantics). -/
def jsExponentOf (t : List Char) : Int :=
  match t with
  | '-' :: u =>
      let ds := u.takeWhile Char.isDigit
      if ds = [] then 0 else -(digitsToNat ds : Int)
  | '+' :: u =>
      let ds := u.takeWhile Char.isDigit
      if ds = [] then 0 else (digitsToNat ds : Int)
  | u =>
      let ds := u.takeWhile Char.isDigit
      if ds = [] then 0 else (digitsToNat ds : Int)

/-- Modelled from the spec: the JavaScript `parseFloat` library routine
used by `filterValidCourses` and `extractCoursesStructurally` (it is not
repository code).  Longest valid decimal-literal prefix after leading
whitespace — sign, digits, optional fraction, optional exponent; `none`
models `NaN`.  The `Infinity` literal is not modelled (no input in this
development contains it). -/
def jsParseFloat (s : String) : Option ℚ :=
  let cs := s.toList.dropWhile jsWhitespace
  let signNeg : Bool := cs.head? = some '-'
  let cs1 := match cs with
    | '-' :: t => t
    | '+' :: t => t
    | _ => cs
  let intDs := cs1.takeWhile Char.isDigit
  let rest1 := cs1.dropWhile Char.isDigit
  let fracDs := match rest1 with
    | '.' :: t => t.takeWhile Char.isDigit
    | _ => []
  let rest2 := match rest1 with
    | '.' :: t => t.dropWhile Char.isDigit
    | _ => rest1
  if intDs = [] ∧ fracDs = [] then none
  else
    let exp : Int :=
      match rest2 with
      | 'e' :: t => jsExponentOf t
      | 'E' :: t => jsExponentOf t
      | _ => 0
    let mantissa : Nat := digitsToNat intDs * 10 ^ fracDs.length + digitsToNat fracDs
    let value : ℚ :=
      if 0 ≤ exp then
        ((mantissa * 10 ^ exp.toNat : Nat) : ℚ) / ((10 ^ fracDs.length : Nat) : ℚ)
      else
        ((mantissa : Nat) : ℚ) / ((10 ^ (fracDs.length + (-exp).toNat) : Nat) : ℚ)
    some (if signNeg then -value else value)

/-- The plain-decimal test regex of the fallback parsers
(digits, optionally a dot and more digits, nothing else). -/
def isPlainDecimal (s : String) : Bool :=
  let cs := s.toList
  let ds := cs.takeWhile Char.isDigit
  let rest := cs.dropWhile Char.isDigit
  decide (ds ≠ []) &&
    match rest with
    | [] => true
    | '.' :: t => decide (t ≠ []) && t.all Char.isDigit
    | _ => false

/-- JavaScript `String.prototype.trim` (ASCII whitespace). -/
def jsTrim (s : String) : String :=
  ⟨((s.toList.dropWhile jsWhitespace).reverse.dropWhile jsWhitespace).reverse⟩

/-- Property read `obj[key]` on an object built by successive
assignments: the last assignment wins. -/
def vObjGet (fields : List (String × JsVal)) (k : String) : Option JsVal :=
  fields.foldl (fun acc p => if p.1 = k then some p.2 else acc) none

/-- The loop body of `filterValidCourses`
(`src/app/api/calculate/route.ts`, lines 163–178): one big acceptance
condition — `c` is an object, `course_title` a string, `credits` a
number or a string with non-`NaN` `parseFloat`, `grade` a string that is
a key of `gradePoints` — and on acceptance the normalized record is
pushed. -/
def filterValidStep (out : List CourseData) (c : JsVal) : List CourseData :=
  match c with
  | .vObj fs =>
      match vObjGet fs "course_title", vObjGet fs "credits", vObjGet fs "grade" with
      | some (.vStr title), some creditsV, some (.vStr grade) =>
          if (match creditsV with
              | .vNum _ => true
              | .vStr s => (jsParseFloat s).isSome
              | _ => false) && gradeKeys.contains grade then
            out ++ [{ course_title := jsTrim title,
                      credits :=
                        match creditsV with
                        | .vNum q => q
                        | .vStr s => (jsParseFloat s).getD 0
                        | _ => 0,
                      grade := grade }]
          else out
      | _, _, _ => out
  | _ => out

/-- `filterValidCourses` from `src/app/api/calculate/route.ts`. -/
def filterValidCourses (raw : List JsVal) : List CourseData :=
  raw.foldl filterValidStep []

/-- Acceptance condition of the validator, phrased as the amended claim
C3 states it: `course_title` present and a string (of any content),
`credits` present and either a number or a string whose `parseFloat` is
not `NaN`, `grade` present and one of the eight grade keys. -/
def specAccepts (c : JsVal) : Bool :=
  match c with
  | .vObj fs =>
      (match vObjGet fs "course_title" with
       | some (.vStr _) => true
       | _ => false) &&
      (match vObjGet fs "credits" with
       | some (.vNum _) => true
       | some (.vStr s) => (jsParseFloat s).isSome
       | _ => false) &&
      (match vObjGet fs "grade" with
       | some (.vStr g) => gradeKeys.contains g
       | _ => false)
  | _ => false

/-- Normalization of an accepted record, phrased as the claim states it:
title trimmed, credits coerced to a number (`parseFloat` for strings),
grade passed through. -/
def specNormalize (c : JsVal) : CourseData :=
  match c with
  | .vObj fs =>
      { course_title :=
          match vObjGet fs "course_title" with
          | some (.vStr t) => jsTrim t
          | _ => ""
        credits :=
          match vObjGet fs "credits" with
          | some (.vNum q) => q
          | some (.vStr s) => (jsParseFloat s).getD 0
          | _ => 0
        grade :=
          match vObjGet fs "grade" with
          | some (.vStr g) => g
          | _ => "" }
  | _ => { course_title := "", credits := 0, grade := "" }

theorem filterValidStep_eq (out : List CourseData) (c : JsVal) :
    filterValidStep out c =
      if specAccepts c then out ++ [specNormalize c] else out := by
  cases c with
  | vNull => rfl
  | vBool b => rfl
  | vNum q => rfl
  | vStr s => rfl
  | vArr l => rfl
  | vObj fs =>
      rcases h1 : vObjGet fs "course_title" with _ | v1
      · simp [filterValidStep, specAccepts, h1]
      · rcases h2 : vObjGet fs "credits" with _ | v2
        · cases v1 <;> simp [filterValidStep, specAccepts, h1, h2]
        · rcases h3 : vObjGet fs "grade" with _ | v3
          · cases v1 <;> cases v2 <;>
              simp [filterValidStep, specAccepts, h1, h2, h3]
          · cases v1 <;> cases v2 <;> cases v3 <;>
              simp [filterValidStep, specAccepts, specNormalize, h1, h2, h3]

theorem filterValidCourses_foldl (raw : List JsVal) :
    ∀ acc, raw.foldl filterValidStep acc =
      acc ++ (raw.filter specAccepts).map specNormalize := by
  induction raw with
  | nil => intro acc; simp
  | cons c t ih =>
      intro acc
      rw [List.foldl_cons, filterValidStep_eq, List.filter_cons]
      by_cases h : specAccepts c
      · simp [h, ih]
      · simp [h, ih]

/-- C3 (amended): the validator is total and keeps exactly the records
accepted by `specAccepts` (title any string, credits a number or a
string with non-`NaN` `parseFloat`, grade in the fixed set), normalizing
each via `specNormalize`; an unknown grade `"X"` drops only its own
record while siblings survive, and string credits `"4.0"` normalize to
the number `4`. -/
theorem filterValidCourses_spec (raw : List JsVal) :
    filterValidCourses raw = (raw.filter specAccepts).map specNormalize ∧
    filterValidCourses
        [JsVal.vObj [("course_title", .vStr "Algo"), ("credits", .vNum 4),
           ("grade", .vStr "A")],
         JsVal.vObj [("course_title", .vStr "Bad"), ("credits", .vNum 3),
           ("grade", .vStr "X")],
         JsVal.vObj [("course_title", .vStr "Nets"), ("credits", .vNum 2),
           ("grade", .vStr "B")]] =
      [{ course_title := "Algo", credits := 4, grade := "A" },
       { course_title := "Nets", credits := 2, grade := "B" }] ∧
    filterValidCourses
        [JsVal.vObj [("course_title", .vStr "T"), ("credits", .vStr "4.0"),
           ("grade", .vStr "A")]] =
      [{ course_title := "T", credits := 4, grade := "A" }] := by
  refine ⟨?_, ?_, ?_⟩
  · unfold filterValidCourses
    rw [filterValidCourses_foldl]
    simp
  · with_unfolding_all decide
  · with_unfolding_all decide

/-- The acceptance condition exactly as the original claim C3 states it:
`course_title` non-empty after trimming, `credits` a number or a string
matching the plain decimal pattern, `grade` in the fixed set. -/
def claimedValidatorAccepts (c : JsVal) : Bool :=
  match c with
  | .vObj fs =>
      (match vObjGet fs "course_title" with
       | some (.vStr t) => jsTrim t != ""
       | _ => false) &&
      (match vObjGet fs "credits" with
       | some (.vNum _) => true
       | some (.vStr s) => isPlainDecimal s
       | _ => false) &&
      (match vObjGet fs "grade" with
       | some (.vStr g) => gradeKeys.contains g
       | _ => false)
  | _ => false

/-- C3 counterexample: a record with an empty `course_title` and the
credits string `"4.5x"` (not a plain decimal, but `parseFloat` reads
`4.5`) is rejected by the claimed acceptance condition yet kept and
normalized by `filterValidCourses` — the code checks only
`typeof === "string"` for the title and `!isNaN(parseFloat(...))` for
string credits. -/
theorem filterValidCourses_claim_counterexample :
    claimedValidatorAccepts
        (JsVal.vObj [("course_title", .vStr ""), ("credits", .vStr "4.5x"),
          ("grade", .vStr "A")]) = false ∧
    filterValidCourses
        [JsVal.vObj [("course_title", .vStr ""), ("credits", .vStr "4.5x"),
          ("grade", .vStr "A")]] =
      [{ course_title := "", credits := mkRat 9 2, grade := "A" }] := by
  constructor
  · with_unfolding_all decide
  · with_unfolding_all decide

/-! ## Strict JSON parsing (claims C4, C8) -/

/-- JSON whitespace (RFC 8259). -/
def jsonWs (c : Char) : Bool := c == ' ' || c == '\t' || c == '\n' || c == '\r'

def hexVal (c : Char) : Option Nat :=
  if '0' ≤ c ∧ c ≤ '9' then some (c.toNat - '0'.toNat)
  else if 'a' ≤ c ∧ c ≤ 'f' then some (c.toNat - 'a'.toNat + 10)
  else if 'A' ≤ c ∧ c ≤ 'F' then some (c.toNat - 'A'.toNat + 10)
  else none

def jsonEscape (e : Char) : Option Char :=
  if e = '"' then some '"' else if e = '\\' then some '\\'
  else if e = '/' then some '/' else if e = 'b' then some (Char.ofNat 8)
  else if e = 'f' then some (Char.ofNat 12) else if e = 'n' then some '\n'
  else if e = 'r' then some '\r' else if e = 't' then some '\t' else none

/-- Body of a JSON string after the opening quote: content characters
and the remainder after the closing quote. -/
def parseJsonStringRest : Nat → List Char → Option (List Char × List Char)
  | 0, _ => none
  | _ + 1, [] => none
  | fuel + 1, c :: t =>
      if c = '"' then some ([], t)
      else if c = '\\' then
        match t with
        | 'u' :: h1 :: h2 :: h3 :: h4 :: u => do
            let d1 ← hexVal h1
            let d2 ← hexVal h2
            let d3 ← hexVal h3
            let d4 ← hexVal h4
            let (cs, r) ← parseJsonStringRest fuel u
            pure (Char.ofNat (((d1 * 16 + d2) * 16 + d3) * 16 + d4) :: cs, r)
        | e :: u => do
            let ec ← jsonEscape e
            let (cs, r) ← parseJsonStringRest fuel u
            pure (ec :: cs, r)
        | [] => none
      else if c.toNat < 32 then none
      else do
        let (cs, r) ← parseJsonStringRest fuel t
        pure (c :: cs, r)

/-- An exact rational from sign, integer digits, fraction digits and a
decimal exponent (shared by the JSON number grammar and `parseFloat`). -/
def ratFromParts (neg : Bool) (intN fracN fracLen : Nat) (exp : Int) : ℚ :=
  let mantissa : Nat := intN * 10 ^ fracLen + fracN
  let v : ℚ :=
    if 0 ≤ exp then ((mantissa * 10 ^ exp.toNat : Nat) : ℚ) / ((10 ^ fracLen : Nat) : ℚ)
    else ((mantissa : Nat) : ℚ) / ((10 ^ (fracLen + (-exp).toNat) : Nat) : ℚ)
  if neg then -v else v

/-- A JSON number at the head of the input (strict grammar: optional
minus, no leading zeros, mandatory digits in fraction and exponent). -/
def parseJsonNumber (s : List Char) : Option (ℚ × List Char) :=
  let neg : Bool := s.head? = some '-'
  let s1 := match s with
    | '-' :: t => t
    | _ => s
  let intDs := s1.takeWhile Char.isDigit
  let r1 := s1.dropWhile Char.isDigit
  if intDs = [] then none
  else if 1 < intDs.length ∧ intDs.head? = some '0' then none
  else
    let fracRes : Option (List Char × List Char) :=
      match r1 with
      | '.' :: t =>
          let f := t.takeWhile Char.isDigit
          if f = [] then none else some (f, t.dropWhile Char.isDigit)
      | _ => some ([], r1)
    match fracRes with
    | none => none
    | some (fracDs, r2) =>
        let expRes : Option (Int × List Char) :=
          match r2 with
          | 'e' :: t =>
              match t with
              | '-' :: u =>
                  let ds := u.takeWhile Char.isDigit
                  if ds = [] then none
                  else some (-(digitsToNat ds : Int), u.dropWhile Char.isDigit)
              | '+' :: u =>
                  let ds := u.takeWhile Char.isDigit
                  if ds = [] then none
                  else some ((digitsToNat ds : Int), u.dropWhile Char.isDigit)
              | u =>
                  let ds := u.takeWhile Char.isDigit
                  if ds = [] then none
                  else some ((digitsToNat ds : Int), u.dropWhile Char.isDigit)
          | 'E' :: t =>
              match t with
              | '-' :: u =>
                  let ds := u.takeWhile Char.isDigit
                  if ds = [] then none
                  else some (-(digitsToNat ds : Int), u.dropWhile Char.isDigit)
              | '+' :: u =>
                  let ds := u.takeWhile Char.isDigit
                  if ds = [] then none
                  else some ((digitsToNat ds : Int), u.dropWhile Char.isDigit)
              | u =>
                  let ds := u.takeWhile Char.isDigit
                  if ds = [] then none
                  else some ((digitsToNat ds : Int), u.dropWhile Char.isDigit)
          | _ => some (0, r2)
        match expRes with
        | none => none
        | some (exp, r3) =>
            some (ratFromParts neg (digitsToNat intDs) (digitsToNat fracDs)
              fracDs.length exp, r3)

mutual

/-- A JSON value at the head of the input (no leading whitespace). -/
def parseJsonValue : Nat → List Char → Option (JsVal × List Char)
  | 0, _ => none
  | fuel + 1, s =>
      match s with
      | 'n' :: 'u' :: 'l' :: 'l' :: r => some (.vNull, r)
      | 't' :: 'r' :: 'u' :: 'e' :: r => some (.vBool true, r)
      | 'f' :: 'a' :: 'l' :: 's' :: 'e' :: r => some (.vBool false, r)
      | '"' :: r => do
          let (cs, r1) ← parseJsonStringRest (fuel + 1) r
          pure (.vStr ⟨cs⟩, r1)
      | '{' :: r => parseJsonMembers fuel (r.dropWhile jsonWs) [] true
      | '[' :: r => parseJsonElems fuel (r.dropWhile jsonWs) [] true
      | _ => do
          let (q, r) ← parseJsonNumber s
          pure (.vNum q, r)

/-- Members of a JSON object after `{` (whitespace already skipped). -/
def parseJsonMembers : Nat → List Char → List (String × JsVal) → Bool →
    Option (JsVal × List Char)
  | 0, _, _, _ => none
  | fuel + 1, s, acc, first =>
      match s with
      | '}' :: r => if first then some (.vObj acc, r) else none
      | '"' :: r => do
          let (ks, r1) ← parseJsonStringRest (fuel + 1) r
          match r1.dropWhile jsonWs with
          | ':' :: r3 => do
              let (v, r4) ← parseJsonValue fuel (r3.dropWhile jsonWs)
              match r4.dropWhile jsonWs with
              | ',' :: r6 =>
                  parseJsonMembers fuel (r6.dropWhile jsonWs) (acc ++ [(⟨ks⟩, v)]) false
              | '}' :: r6 => some (.vObj (acc ++ [(⟨ks⟩, v)]), r6)
              | _ => none
          | _ => none
      | _ => none

/-- Elements of a JSON array after `[` (whitespace already skipped). -/
def parseJsonElems : Nat → List Char → List JsVal → Bool →
    Option (JsVal × List Char)
  | 0, _, _, _ => none
  | fuel + 1, s, acc, first =>
      match s with
      | ']' :: r => if first then some (.vArr acc, r) else none
      | _ => do
          let (v, r1) ← parseJsonValue fuel s
          match r1.dropWhile jsonWs with
          | ',' :: r2 => parseJsonElems fuel (r2.dropWhile jsonWs) (acc ++ [v]) false
          | ']' :: r2 => some (.vArr (acc ++ [v]), r2)
          | _ => none

end

/-- Modelled from the spec: `JSON.parse` (a library routine, not
repository code), as a strict RFC 8259 parser; `none` models a thrown
`SyntaxError`. -/
def jsonParse (s : String) : Option JsVal :=
  let cs := s.toList.dropWhile jsonWs
  match parseJsonValue (s.toList.length + 1) cs with
  | some (v, rest) => if rest.dropWhile jsonWs = [] then some v else none
  | none => none

/-! ## Structural extraction fallback (`extractCoursesStructurally`) -/

/-- `String.prototype.indexOf` for a substring: index of the first
occurrence, `none` when absent. -/
def findSubstrIdx (needle : List Char) : List Char → Option Nat
  | [] => if needle = [] then some 0 else none
  | c :: t =>
      if needle.isPrefixOf (c :: t) then some 0
      else (findSubstrIdx needle t).map (· + 1)

/-- The bracket-depth scan of `extractCoursesStructurally`: walk from the
opening `[` tracking square-bracket depth; the index (relative to the
scan origin `i`) of the `]` that returns the depth to zero. -/
def findArrayEnd : List Char → Nat → Nat → Option Nat
  | [], _, _ => none
  | c :: t, depth, i =>
      if c = '[' then findArrayEnd t (depth + 1) (i + 1)
      else if c = ']' then
        if depth = 1 then some i else findArrayEnd t (depth - 1) (i + 1)
      else findArrayEnd t depth (i + 1)

/-- The brace-depth splitter of `extractCoursesStructurally`: cut the
array content into top-level `{...}` segments. -/
def splitCourseItems : List Char → Nat → List Char → List (List Char) → List (List Char)
  | [], _, _, items => items
  | c :: t, bDepth, buf, items =>
      if c = '{' then
        splitCourseItems t (bDepth + 1) ((if bDepth = 0 then [] else buf) ++ [c]) items
      else if 0 < bDepth then
        if c = '}' then
          if bDepth = 1 then splitCourseItems t 0 [] (items ++ [buf ++ [c]])
          else splitCourseItems t (bDepth - 1) (buf ++ [c]) items
        else splitCourseItems t bDepth (buf ++ [c]) items
      else splitCourseItems t bDepth buf items

def isIdentStart (c : Char) : Bool := c.isAlpha || c == '_'

def isIdentChar (c : Char) : Bool := c.isAlphanum || c == '_'

/-- One attempted match of the key/value pair pattern (bareword key,
colon, everything up to the next `,` or `}` with that terminator
required by the lookahead) at the head of `s`. Returns the key, the raw
captured value and the remainder starting at the terminator. -/
def matchPairAt (s : List Char) : Option (String × String × List Char) :=
  match s with
  | [] => none
  | c :: t =>
      if isIdentStart c then
        let key := c :: t.takeWhile isIdentChar
        let r1 := (t.dropWhile isIdentChar).dropWhile jsWhitespace
        match r1 with
        | ':' :: r3 =>
            let region := r3.takeWhile (fun d => d != ',' && d != '}')
            let r4 := r3.dropWhile (fun d => d != ',' && d != '}')
            if region = [] then none
            else
              match r4 with
              | ',' :: _ => some (⟨key⟩, ⟨region⟩, r4)
              | '}' :: _ => some (⟨key⟩, ⟨region⟩, r4)
              | _ => none
        | _ => none
      else none

/-- The global-regex scan: repeated `exec` of the pair pattern, resuming
at the end of each match (the unconsumed lookahead terminator), or one
character later after a failed attempt. -/
def scanPairs : Nat → List Char → List (String × String) → List (String × String)
  | 0, _, acc => acc
  | _ + 1, [], acc => acc
  | fuel + 1, c :: t, acc =>
      match matchPairAt (c :: t) with
      | some (k, v, rest) => scanPairs fuel rest (acc ++ [(k, v)])
      | none => scanPairs fuel t acc

/-- Value post-processing of `extractCoursesStructurally`: trim, strip
one layer of surrounding matching quotes, then number-coerce plain
decimals via `parseFloat`. -/
def processPairValue (v : String) : JsVal :=
  let tv := jsTrim v
  let unq : String :=
    if (tv.toList.head? = some '"' ∧ tv.toList.getLast? = some '"') ∨
        (tv.toList.head? = some '\'' ∧ tv.toList.getLast? = some '\'') then
      ⟨(tv.toList.drop 1).dropLast⟩
    else tv
  if isPlainDecimal unq then .vNum ((jsParseFloat unq).getD 0) else .vStr unq

/-- `extractCoursesStructurally` from `src/app/api/calculate/route.ts`:
locate the literal substring `courses`, the `:` after it, the `[` after
that; find the matching `]` by bracket depth; split the content into
top-level `{...}` segments; extract `key: value` pairs from each. -/
def extractCoursesStructurally (text : String) : Except String (List JsVal) :=
  let cs := text.toList
  match findSubstrIdx "courses".toList cs with
  | none => .error "No courses section"
  | some coursesIdx =>
      let after := cs.drop coursesIdx
      match after.findIdx? (fun c => c = ':') with
      | none => .error "Malformed courses section"
      | some colonIdx =>
          match ((after.drop colonIdx).findIdx? (fun c => c = '[')).map (· + colonIdx) with
          | none => .error "No courses array start"
          | some bracketStart =>
              match findArrayEnd (after.drop bracketStart) 0 bracketStart with
              | none => .error "Unterminated courses array"
              | some endPos =>
                  let arrayContent :=
                    (after.drop (bracketStart + 1)).take (endPos - (bracketStart + 1))
                  let items := splitCourseItems arrayContent 0 [] []
                  .ok (items.map (fun raw =>
                    .vObj ((scanPairs (raw.length + 1) raw []).map
                      (fun p => (p.1, processPairValue p.2)))))

/-! ## `parseCoursesFromText` and claim C4 -/

/-- The strict-JSON fast path of `parseCoursesFromText`: a successfully
parsed value that is an array, or an object whose `courses` property is
an array, yields the record list; anything else falls through. -/
def strictCoursesArr (text : String) : Option (List JsVal) :=
  match jsonParse text with
  | some (.vArr l) => some l
  | some (.vObj fs) =>
      match vObjGet fs "courses" with
      | some (.vArr l) => some l
      | _ => none
  | _ => none

/-- `parseCoursesFromText` from `src/app/api/calculate/route.ts`:
strict path returns the validated records unconditionally (also when
empty); the structural fallback throws on extraction failure and throws
`"No valid courses"` when validation leaves nothing. -/
def parseCoursesFromText (text : String) : Except String (List CourseData) :=
  match strictCoursesArr text with
  | some arr => .ok (filterValidCourses arr)
  | none =>
      match extractCoursesStructurally text with
      | .error e => .error e
      | .ok coursesArray =>
          let filtered := filterValidCourses coursesArray
          if filtered.isEmpty then .error "No valid courses" else .ok filtered

/-- C4 (amended): on the fallback (structural-extraction) path, zero
validated records is reported as the no-valid-courses decode failure;
but on the strict-JSON path the validated list is returned
unconditionally, even when empty. -/
theorem parseCoursesFromText_zero_valid (text : String) :
    (∀ l, (strictCoursesArr text).isNone = true →
      parseCoursesFromText text = .ok l → l ≠ []) ∧
    (∀ arr, strictCoursesArr text = some arr →
      parseCoursesFromText text = .ok (filterValidCourses arr)) := by
  constructor
  · intro l hnone hok
    unfold parseCoursesFromText at hok
    cases hs : strictCoursesArr text with
    | some arr => rw [hs] at hnone; simp at hnone
    | none =>
        rw [hs] at hok
        cases he : extractCoursesStructurally text with
        | error e => rw [he] at hok; cases hok
        | ok arr2 =>
            rw [he] at hok
            simp only [] at hok
            by_cases hemp : (filterValidCourses arr2).isEmpty
            · rw [if_pos hemp] at hok; cases hok
            · rw [if_neg hemp] at hok
              cases hok
              intro hcontr
              rw [hcontr] at hemp
              simp [List.isEmpty] at hemp
  · intro arr hs
    unfold parseCoursesFromText
    rw [hs]

/-- Witness for C4 (amended) at a concrete pseudo-JSON text that reaches
the fallback path and yields one validated course. -/
theorem parseCoursesFromText_zero_valid_witness :
    ((strictCoursesArr "{courses: [{course_title: X, credits: 3, grade: A}]}").isNone
        = true ∧
      parseCoursesFromText "{courses: [{course_title: X, credits: 3, grade: A}]}" =
        .ok [{ course_title := "X", credits := 3, grade := "A" }]) ∧
    ([{ course_title := "X", credits := 3, grade := "A" }] : List CourseData) ≠ [] := by
  have h1 : (strictCoursesArr
      "{courses: [{course_title: X, credits: 3, grade: A}]}").isNone = true := by
    with_unfolding_all rfl
  have h2 : parseCoursesFromText "{courses: [{course_title: X, credits: 3, grade: A}]}" =
      .ok [{ course_title := "X", credits := 3, grade := "A" }] := by
    with_unfolding_all rfl
  exact ⟨⟨h1, h2⟩,
    (parseCoursesFromText_zero_valid
      "{courses: [{course_title: X, credits: 3, grade: A}]}").1 _ h1 h2⟩

/-- C4 counterexample: on the strict-JSON path an array whose only
record fails validation (unknown grade `"X"`) is returned as the
empty-but-valid result `.ok []` — no error is raised — and the pipeline
then computes the CGPA `0` of the empty list. -/
theorem parseCoursesFromText_strict_empty_counterexample :
    parseCoursesFromText "[\x7b\"course_title\":\"X\",\"credits\":3,\"grade\":\"X\"\x7d]" =
      .ok ([] : List CourseData) ∧
    calculateCGPA [] = 0 := by
  constructor
  · with_unfolding_all rfl
  · with_unfolding_all rfl

/-! ## Claim C8: dialect equivalence -/

/-- C8 counterexample: the claim's own instance fails — the strict text
`[{"course_title":"X","credits":3,"grade":"A"}]` normalizes to one
course, but its pseudo-JS rendering `[{course_title: X, credits: 3,
grade: A}]` is rejected: strict JSON parsing fails on the unquoted key,
and the structural fallback requires the literal substring `courses`,
which this text does not contain. -/
theorem dialect_equivalence_counterexample :
    parseCoursesFromText "[\x7b\"course_title\":\"X\",\"credits\":3,\"grade\":\"A\"\x7d]" =
      .ok [{ course_title := "X", credits := 3, grade := "A" }] ∧
    parseCoursesFromText "[{course_title: X, credits: 3, grade: A}]" =
      .error "No courses section" := by
  constructor
  · with_unfolding_all rfl
  · with_unfolding_all rfl

/-- C8 (amended): dialect equivalence holds for texts carrying a
`courses` section: the strict rendering and the pseudo-JS rendering
(unquoted keys, unquoted bareword/multi-word values) of the same records
normalize to the same course list, on a one-course and a two-course
instance. -/
theorem dialect_equivalence_wrapped :
    (parseCoursesFromText
        "\x7b\"courses\":[\x7b\"course_title\":\"X\",\"credits\":3,\"grade\":\"A\"\x7d]\x7d" =
          .ok [{ course_title := "X", credits := 3, grade := "A" }] ∧
      parseCoursesFromText "{courses: [{course_title: X, credits: 3, grade: A}]}" =
        .ok [{ course_title := "X", credits := 3, grade := "A" }]) ∧
    (parseCoursesFromText
        "\x7b\"courses\":[\x7b\"course_title\":\"Data Structures\",\"credits\":4,\"grade\":\"S\"\x7d,\x7b\"course_title\":\"Physics Lab\",\"credits\":1.5,\"grade\":\"B\"\x7d]\x7d" =
          .ok [{ course_title := "Data Structures", credits := 4, grade := "S" },
               { course_title := "Physics Lab", credits := mkRat 3 2, grade := "B" }] ∧
      parseCoursesFromText
        "{courses: [{course_title: Data Structures, credits: 4, grade: S}, {course_title: Physics Lab, credits: 1.5, grade: B}]}" =
          .ok [{ course_title := "Data Structures", credits := 4, grade := "S" },
               { course_title := "Physics Lab", credits := mkRat 3 2, grade := "B" }]) := by
  refine ⟨⟨?_, ?_⟩, ?_, ?_⟩
  · with_unfolding_all rfl
  · with_unfolding_all rfl
  · with_unfolding_all rfl
  · with_unfolding_all rfl

/-! ## A comparator sort and insertion-ordered grouping (claims C5, C6, C10)

`Array.prototype.sort` with a consistent comparator is modelled by a
stable insertion sort; the `Map`-based semester grouping by an
association list in insertion order. -/

def insertLe {α : Type} (le : α → α → Bool) (a : α) : List α → List α
  | [] => [a]
  | b :: t => if le a b then a :: b :: t else b :: insertLe le a t

def insertionSortLe {α : Type} (le : α → α → Bool) : List α → List α
  | [] => []
  | a :: t => insertLe le a (insertionSortLe le t)

theorem insertLe_perm {α : Type} (le : α → α → Bool) (a : α) :
    ∀ l, List.Perm (insertLe le a l) (a :: l) := by
  intro l
  induction l with
  | nil => exact List.Perm.refl _
  | cons b t ih =>
      simp only [insertLe]
      by_cases h : le a b
      · rw [if_pos h]
      · rw [if_neg h]
        exact (ih.cons b).trans (List.Perm.swap a b t)

theorem insertionSortLe_perm {α : Type} (le : α → α → Bool) :
    ∀ l, List.Perm (insertionSortLe le l) l := by
  intro l
  induction l with
  | nil => exact List.Perm.refl _
  | cons a t ih => exact (insertLe_perm le a (insertionSortLe le t)).trans (ih.cons a)

theorem mem_insertLe {α : Type} (le : α → α → Bool) (a x : α) (l : List α) :
    x ∈ insertLe le a l ↔ x = a ∨ x ∈ l := by
  rw [(insertLe_perm le a l).mem_iff]
  simp

theorem pairwise_insertLe {α : Type} (le : α → α → Bool) (P : α → Prop)
    (htrans : ∀ x y z, P x → P y → P z → le x y = true → le y z = true →
      le x z = true)
    (htot : ∀ x y, P x → P y → le x y = true ∨ le y x = true) (a : α) :
    ∀ l, P a → (∀ x ∈ l, P x) → l.Pairwise (fun x y => le x y = true) →
      (insertLe le a l).Pairwise (fun x y => le x y = true) := by
  intro l
  induction l with
  | nil =>
      intro _ _ _
      simp [insertLe]
  | cons b t ih =>
      intro ha hl hp
      have hb : P b := hl b (by simp)
      have ht : ∀ x ∈ t, P x := fun x hx => hl x (by simp [hx])
      rw [List.pairwise_cons] at hp
      obtain ⟨hbt, hpt⟩ := hp
      simp only [insertLe]
      by_cases h : le a b
      · rw [if_pos h]
        refine List.Pairwise.cons ?_ (List.Pairwise.cons hbt hpt)
        intro x hx
        rcases List.mem_cons.mp hx with rfl | hx
        · exact h
        · exact htrans a b x ha hb (ht x hx) h (hbt x hx)
      · rw [if_neg h]
        refine List.Pairwise.cons ?_ (ih ha ht hpt)
        intro x hx
        rw [mem_insertLe] at hx
        rcases hx with hxa | hx
        · rw [hxa]
          rcases htot a b ha hb with hab | hba
          · exact absurd hab h
          · exact hba
        · exact hbt x hx

theorem pairwise_insertionSortLe {α : Type} (le : α → α → Bool) (P : α → Prop)
    (htrans : ∀ x y z, P x → P y → P z → le x y = true → le y z = true →
      le x z = true)
    (htot : ∀ x y, P x → P y → le x y = true ∨ le y x = true) :
    ∀ l, (∀ x ∈ l, P x) →
      (insertionSortLe le l).Pairwise (fun x y => le x y = true) := by
  intro l
  induction l with
  | nil =>
      intro _
      simp [insertionSortLe]
  | cons a t ih =>
      intro hl
      have ha : P a := hl a (by simp)
      have ht : ∀ x ∈ t, P x := fun x hx => hl x (by simp [hx])
      have hts : ∀ x ∈ insertionSortLe le t, P x := fun x hx =>
        ht x ((insertionSortLe_perm le t).mem_iff.mp hx)
      exact pairwise_insertLe le P htrans htot a (insertionSortLe le t) ha hts (ih ht)

/-- One step of the `semesterMap` construction: push onto the list held
under the key, creating the entry (at the end, in insertion order) on
first sight. -/
def pushEntry {α : Type} : List (String × List α) → String → α → List (String × List α)
  | [], k, c => [(k, [c])]
  | (k0, l0) :: rest, k, c =>
      if k0 = k then (k0, l0 ++ [c]) :: rest else (k0, l0) :: pushEntry rest k c

/-- `Map.get` on the association list. -/
def mapLookup {α : Type} : List (String × List α) → String → Option (List α)
  | [], _ => none
  | (k0, l0) :: rest, k => if k0 = k then some l0 else mapLookup rest k

/-- The `forEach` loop that groups a list by a string key into a `Map`
in insertion order. -/
def groupFold {α : Type} (kf : α → String) (l : List α) : List (String × List α) :=
  l.foldl (fun m c => pushEntry m (kf c) c) []

theorem mapLookup_pushEntry {α : Type} (k k' : String) (c : α) :
    ∀ m, mapLookup (pushEntry m k c) k' =
      if k' = k then some ((mapLookup m k).getD [] ++ [c]) else mapLookup m k' := by
  intro m
  induction m with
  | nil =>
      by_cases h : k' = k
      · subst h
        simp [pushEntry, mapLookup]
      · simp only [pushEntry, mapLookup, if_neg h]
        rw [if_neg (fun hk : k = k' => h hk.symm)]
  | cons p rest ih =>
      obtain ⟨k0, l0⟩ := p
      by_cases h0 : k0 = k
      · subst h0
        simp only [pushEntry, if_pos rfl, mapLookup]
        by_cases h : k' = k0
        · subst h
          simp [mapLookup]
        · rw [if_neg (fun hk : k0 = k' => h hk.symm), if_neg h,
            if_neg (fun hk : k0 = k' => h hk.symm)]
      · simp only [pushEntry, if_neg h0, mapLookup]
        by_cases h : k' = k
        · have h2 : ¬(k0 = k') := fun hk => h0 (hk.trans h)
          rw [if_neg h2, ih, if_pos h, if_pos h]
        · by_cases h2 : k0 = k'
          · rw [if_pos h2, if_neg h, if_pos h2]
          · rw [if_neg h2, ih, if_neg h, if_neg h, if_neg h2]

theorem keys_pushEntry {α : Type} (k : String) (c : α) :
    ∀ m : List (String × List α), (pushEntry m k c).map (·.1) =
      if k ∈ m.map (·.1) then m.map (·.1) else m.map (·.1) ++ [k] := by
  intro m
  induction m with
  | nil => simp [pushEntry]
  | cons p rest ih =>
      obtain ⟨k0, l0⟩ := p
      by_cases h0 : k0 = k
      · subst h0
        simp [pushEntry]
      · simp only [pushEntry, if_neg h0, List.map_cons, ih]
        by_cases hm : k ∈ rest.map (·.1)
        · rw [if_pos hm, if_pos (by simp [hm])]
        · rw [if_neg hm,
            if_neg (by simp only [List.mem_cons]
                       rintro (h | h)
                       · exact h0 h.symm
                       · exact hm h)]
          simp

theorem groupFold_append {α : Type} (kf : α → String) (l : List α) (c : α) :
    groupFold kf (l ++ [c]) = pushEntry (groupFold kf l) (kf c) c := by
  simp [groupFold, List.foldl_append]

theorem filter_key_nil_of_not_mem {α : Type} (kf : α → String) (k : String) :
    ∀ l : List α, k ∉ l.map kf → l.filter (fun c => kf c = k) = [] := by
  intro l h
  rw [List.filter_eq_nil_iff]
  intro c hc
  simp only [decide_eq_true_eq]
  intro hkc
  exact h (List.mem_map.mpr ⟨c, hc, hkc⟩)

theorem mapLookup_groupFold {α : Type} (kf : α → String) :
    ∀ (l : List α) (k : String), mapLookup (groupFold kf l) k =
      if k ∈ l.map kf then some (l.filter (fun c => kf c = k)) else none := by
  intro l
  induction l using List.reverseRecOn with
  | nil => intro k; simp [groupFold, mapLookup]
  | append_singleton t c ih =>
      intro k
      rw [groupFold_append, mapLookup_pushEntry]
      by_cases h : k = kf c
      · subst h
        rw [if_pos rfl, ih]
        have hmem : kf c ∈ (t ++ [c]).map kf := by simp
        rw [if_pos hmem, List.filter_append]
        have hc : [c].filter (fun x => kf x = kf c) = [c] := by simp
        rw [hc]
        by_cases hm : kf c ∈ t.map kf
        · rw [if_pos hm]
          simp
        · rw [if_neg hm]
          simp [filter_key_nil_of_not_mem kf (kf c) t hm]
      · rw [if_neg h, ih]
        have hmem : (k ∈ (t ++ [c]).map kf) ↔ (k ∈ t.map kf) := by
          simp only [List.map_append, List.mem_append, List.map_cons,
            List.map_nil, List.mem_cons, List.not_mem_nil, or_false]
          constructor
          · rintro (hm | hm)
            · exact hm
            · exact absurd hm h
          · exact Or.inl
        have hck : ¬(kf c = k) := fun hk => h hk.symm
        have hfil : (t ++ [c]).filter (fun x => kf x = k) =
            t.filter (fun x => kf x = k) := by
          rw [List.filter_append]
          have hnil : [c].filter (fun x => kf x = k) = [] := by
            simp [hck]
          rw [hnil, List.append_nil]
        rw [hfil]
        by_cases hm : k ∈ t.map kf
        · rw [if_pos hm, if_pos (hmem.mpr hm)]
        · rw [if_neg hm, if_neg (fun hx => hm (hmem.mp hx))]

theorem mem_keys_groupFold {α : Type} (kf : α → String) :
    ∀ (l : List α) (k : String),
      (k ∈ (groupFold kf l).map (·.1)) ↔ k ∈ l.map kf := by
  intro l
  induction l using List.reverseRecOn with
  | nil => intro k; simp [groupFold]
  | append_singleton t c ih =>
      intro k
      rw [groupFold_append, keys_pushEntry]
      by_cases hm : kf c ∈ (groupFold kf t).map (·.1)
      · rw [if_pos hm]
        rw [ih] at hm ⊢
        simp only [List.map_append, List.mem_append, List.map_cons, List.map_nil,
          List.mem_cons, List.not_mem_nil, or_false]
        constructor
        · exact Or.inl
        · rintro (h | h)
          · exact h
          · exact h ▸ hm
      · rw [if_neg hm]
        simp [ih]
  
theorem keys_groupFold_nodup {α : Type} (kf : α → String) :
    ∀ l : List α, ((groupFold kf l).map (·.1)).Nodup := by
  intro l
  induction l using List.reverseRecOn with
  | nil => simp [groupFold]
  | append_singleton t c ih =>
      rw [groupFold_append, keys_pushEntry]
      by_cases hm : kf c ∈ (groupFold kf t).map (·.1)
      · rw [if_pos hm]
        exact ih
      · rw [if_neg hm]
        rw [List.nodup_append]
        exact ⟨ih, List.nodup_singleton _, by simpa using fun h => hm h⟩

/-! ## The full-report grouping (`src/app/api/app/route.ts`) -/

/-- The `CourseData` record of `src/app/api/app/route.ts`: credits may
arrive as a string or a number. -/
structure AppCourse where
  id : Int
  course_code : String
  course_title : String
  course_type : String
  credits : String ⊕ ℚ
  grade : String
  exam_month : String
  course_distribution : String

/-- The credits coercion used throughout the report route:
`typeof credits === 'string' ? parseFloat(credits) : credits`.
(A `NaN` result on an unparseable string is outside the model; no claim
exercises it.) -/
def appCreditsToNum (c : String ⊕ ℚ) : ℚ :=
  match c with
  | .inl s => (jsParseFloat s).getD 0
  | .inr q => q

/-- `calculateSemesterGPA` from `src/app/api/app/route.ts`. -/
def calculateSemesterGPA (courses : List AppCourse) : ℚ :=
  let validCourses := courses.filter (fun c => c.grade != "P")
  if validCourses.length = 0 then 0
  else
    let totalGradePoints := validCourses.foldl
      (fun sum c => sum + gradePoints c.grade * appCreditsToNum c.credits) 0
    let totalCredits := validCourses.foldl
      (fun sum c => sum + appCreditsToNum c.credits) 0
    if 0 < totalCredits then totalGradePoints / totalCredits else 0

/-- `String.prototype.split` at a separator character. -/
def splitOnChar (sep : Char) : List Char → List (List Char)
  | [] => [[]]
  | c :: t =>
      let r := splitOnChar sep t
      if c = sep then [] :: r
      else
        match r with
        | h :: t2 => (c :: h) :: t2
        | [] => [[c]]

/-- Modelled from the spec: JavaScript `parseInt(s)` in base 10 (a
library routine): leading whitespace, optional sign, longest leading
digit run; `none` models `NaN`. -/
def jsParseInt (s : String) : Option Int :=
  let cs := s.toList.dropWhile jsWhitespace
  let neg : Bool := cs.head? = some '-'
  let cs1 := match cs with
    | '-' :: t => t
    | '+' :: t => t
    | _ => cs
  let ds := cs1.takeWhile Char.isDigit
  if ds = [] then none
  else some (if neg then -(digitsToNat ds : Int) else (digitsToNat ds : Int))

/-- The `monthMap` of `groupCoursesBySemester` (1-based months). -/
def appMonthMap (m : String) : Option Nat :=
  if m = "Jan" then some 1 else if m = "Feb" then some 2
  else if m = "Mar" then some 3 else if m = "Apr" then some 4
  else if m = "May" then some 5 else if m = "Jun" then some 6
  else if m = "Jul" then some 7 else if m = "Aug" then some 8
  else if m = "Sep" then some 9 else if m = "Oct" then some 10
  else if m = "Nov" then some 11 else if m = "Dec" then some 12
  else none

/-- The year adjustment of the JavaScript `Date(year, month)`
constructor: years 0–99 denote 1900–1999. -/
def adjYear (y : Int) : Int := if 0 ≤ y ∧ y ≤ 99 then y + 1900 else y

/-- An order-preserving stand-in for `new Date(y, m).getTime()` with
zero-based month `m`. -/
def dateKey (y m : Int) : Int := adjYear y * 12 + m

/-- `parseDate` of `groupCoursesBySemester`: split the label at `-`,
look up the month abbreviation (1–12), `parseInt` the year; `none`
models an invalid date (`NaN` time). -/
def appParseDateKey (label : String) : Option Int :=
  let parts := splitOnChar '-' label.toList
  let monthVal : Option Nat := appMonthMap ⟨parts.headD []⟩
  let yearVal : Option Int :=
    match parts.drop 1 with
    | [] => none
    | y :: _ => jsParseInt ⟨y⟩
  match monthVal, yearVal with
  | some m, some y => some (dateKey y ((m : Int) - 1))
  | _, _ => none

/-- The comparator `parseDate(a).getTime() - parseDate(b).getTime()` as
a Boolean order.  When either label fails to parse, the difference is
`NaN`, which the sort treats as `0` (labels compare equal): `true` in
both directions. -/
def appLabelLe (a b : String) : Bool :=
  match appParseDateKey a, appParseDateKey b with
  | some x, some y => decide (x ≤ y)
  | _, _ => true

/-- The per-semester group emitted by `groupCoursesBySemester`. -/
structure SemesterGroup where
  semester : String
  courses : List AppCourse
  gpa : ℚ

/-- `groupCoursesBySemester` from `src/app/api/app/route.ts`: group by
`exam_month` in insertion order, sort the keys chronologically, and emit
one `{semester, courses, gpa}` record per key. -/
def groupCoursesBySemester (courses : List AppCourse) : List SemesterGroup :=
  let semesterMap := groupFold (fun c => c.exam_month) courses
  let sortedSemesters := insertionSortLe appLabelLe (semesterMap.map (·.1))
  sortedSemesters.map (fun s =>
    { semester := s
      courses := (mapLookup semesterMap s).getD []
      gpa := calculateSemesterGPA ((mapLookup semesterMap s).getD []) })

/-! ### Counting helpers for the partition claim -/

theorem sum_map_const_zero {α : Type} :
    ∀ l : List α, (l.map (fun _ => (0 : ℕ))).sum = 0 := by
  intro l
  induction l with
  | nil => rfl
  | cons x t ih => simp [ih]

theorem sum_map_add_nat {α : Type} (f g : α → ℕ) :
    ∀ l : List α, (l.map (fun x => f x + g x)).sum = (l.map f).sum + (l.map g).sum := by
  intro l
  induction l with
  | nil => rfl
  | cons x t ih =>
      simp only [List.map_cons, List.sum_cons, ih]
      omega

theorem sum_indicator_of_not_mem (x : String) :
    ∀ keys : List String, x ∉ keys →
      (keys.map (fun k => if x = k then (1 : ℕ) else 0)).sum = 0 := by
  intro keys
  induction keys with
  | nil => intro _; rfl
  | cons k t ih =>
      intro hx
      have hxk : ¬(x = k) := fun h => hx (by simp [h])
      have hxt : x ∉ t := fun h => hx (by simp [h])
      simp [hxk, ih hxt]

theorem sum_indicator_of_mem (x : String) :
    ∀ keys : List String, keys.Nodup → x ∈ keys →
      (keys.map (fun k => if x = k then (1 : ℕ) else 0)).sum = 1 := by
  intro keys
  induction keys with
  | nil => intro _ h; cases h
  | cons k t ih =>
      intro hnd hx
      rw [List.nodup_cons] at hnd
      rcases List.mem_cons.mp hx with hxk | hxt
      · subst hxk
        have : x ∉ t := hnd.1
        simp [sum_indicator_of_not_mem x t this]
      · have hxk : ¬(x = k) := fun h => hnd.1 (h ▸ hxt)
        simp [hxk, ih hnd.2 hxt]

theorem sum_filter_lengths {α : Type} (kf : α → String) :
    ∀ (l : List α) (keys : List String), keys.Nodup → (∀ c ∈ l, kf c ∈ keys) →
      (keys.map (fun k => (l.filter (fun c => kf c = k)).length)).sum = l.length := by
  intro l
  induction l with
  | nil =>
      intro keys _ _
      simp only [List.filter_nil, List.length_nil]
      exact sum_map_const_zero keys
  | cons c t ih =>
      intro keys hnd hcm
      have hct : ∀ x ∈ t, kf x ∈ keys := fun x hx => hcm x (by simp [hx])
      have hpoint : ∀ k, ((c :: t).filter (fun x => kf x = k)).length =
          (if kf c = k then 1 else 0) + (t.filter (fun x => kf x = k)).length := by
        intro k
        by_cases h : kf c = k
        · simp [List.filter_cons, h]
          omega
        · simp [List.filter_cons, h]
      calc (keys.map (fun k => ((c :: t).filter (fun x => kf x = k)).length)).sum
          = (keys.map (fun k => (if kf c = k then 1 else 0) +
              (t.filter (fun x => kf x = k)).length)).sum := by
            simp only [hpoint]
        _ = (keys.map (fun k => if kf c = k then (1 : ℕ) else 0)).sum +
            (keys.map (fun k => (t.filter (fun x => kf x = k)).length)).sum :=
            sum_map_add_nat _ _ keys
        _ = 1 + t.length := by
            rw [sum_indicator_of_mem (kf c) keys hnd (hcm c (by simp)),
              ih keys hnd hct]
        _ = (c :: t).length := by simp [Nat.add_comm]

/-- The semester labels of the grouped output are the sorted first-seen
keys of the insertion-ordered map. -/
theorem groupCoursesBySemester_labels (courses : List AppCourse) :
    (groupCoursesBySemester courses).map (·.semester) =
      insertionSortLe appLabelLe
        ((groupFold (fun c => c.exam_month) courses).map (·.1)) := by
  simp only [groupCoursesBySemester, List.map_map]
  exact List.map_id _

/-- C10: semester grouping is a lossless partition: group labels are
pairwise distinct, each group holds exactly the input courses bearing
its label in input order, every course's label has a group, and the
group sizes sum to the input length. -/
theorem groupCoursesBySemester_partition (courses : List AppCourse) :
    ((groupCoursesBySemester courses).map (·.semester)).Nodup ∧
    (∀ g ∈ groupCoursesBySemester courses,
      g.courses = courses.filter (fun c => c.exam_month = g.semester)) ∧
    (∀ c ∈ courses,
      c.exam_month ∈ (groupCoursesBySemester courses).map (·.semester)) ∧
    ((groupCoursesBySemester courses).map (fun g => g.courses.length)).sum =
      courses.length := by
  have hperm := insertionSortLe_perm appLabelLe
    ((groupFold (fun c => c.exam_month) courses).map (·.1))
  refine ⟨?_, ?_, ?_, ?_⟩
  · rw [groupCoursesBySemester_labels]
    exact hperm.nodup_iff.mpr (keys_groupFold_nodup _ courses)
  · intro g hg
    simp only [groupCoursesBySemester, List.mem_map] at hg
    obtain ⟨s, hs, rfl⟩ := hg
    have hsk : s ∈ (groupFold (fun c => c.exam_month) courses).map (·.1) :=
      hperm.mem_iff.mp hs
    have hsm : s ∈ courses.map (fun c => c.exam_month) :=
      (mem_keys_groupFold _ courses s).mp hsk
    show (mapLookup (groupFold (fun c => c.exam_month) courses) s).getD [] =
      courses.filter (fun c => c.exam_month = s)
    rw [mapLookup_groupFold, if_pos hsm]
    rfl
  · intro c hc
    rw [groupCoursesBySemester_labels]
    have hm : c.exam_month ∈ courses.map (fun c => c.exam_month) :=
      List.mem_map.mpr ⟨c, hc, rfl⟩
    exact hperm.mem_iff.mpr ((mem_keys_groupFold _ courses _).mpr hm)
  · have hmap : (groupCoursesBySemester courses).map (fun g => g.courses.length) =
        (insertionSortLe appLabelLe
          ((groupFold (fun c => c.exam_month) courses).map (·.1))).map
            (fun s => ((mapLookup (groupFold (fun c => c.exam_month) courses)
              s).getD []).length) := by
      simp [groupCoursesBySemester, List.map_map, Function.comp]
    rw [hmap]
    have hpt : ∀ s ∈ insertionSortLe appLabelLe
        ((groupFold (fun c => c.exam_month) courses).map (·.1)),
        ((mapLookup (groupFold (fun c => c.exam_month) courses) s).getD []).length =
          (courses.filter (fun c => c.exam_month = s)).length := by
      intro s hs
      have hsk : s ∈ (groupFold (fun c => c.exam_month) courses).map (·.1) :=
        hperm.mem_iff.mp hs
      have hsm : s ∈ courses.map (fun c => c.exam_month) :=
        (mem_keys_groupFold _ courses s).mp hsk
      rw [mapLookup_groupFold, if_pos hsm]
      rfl
    rw [List.map_congr_left hpt]
    rw [(hperm.map (fun s => (courses.filter (fun c => c.exam_month = s)).length)).sum_eq]
    exact sum_filter_lengths (fun c => c.exam_month) courses
      ((groupFold (fun c => c.exam_month) courses).map (·.1))
      (keys_groupFold_nodup _ courses)
      (fun c hc => (mem_keys_groupFold _ courses _).mpr (List.mem_map.mpr ⟨c, hc, rfl⟩))

/-- The chronological key order is year-first lexicographic on
(adjusted year, month) for in-range months. -/
theorem dateKey_le_iff (y1 m1 y2 m2 : Int) (h1a : 0 ≤ m1) (h1b : m1 < 12)
    (h2a : 0 ≤ m2) (h2b : m2 < 12) :
    dateKey y1 m1 ≤ dateKey y2 m2 ↔
      (adjYear y1 < adjYear y2 ∨ (adjYear y1 = adjYear y2 ∧ m1 ≤ m2)) := by
  unfold dateKey
  constructor <;> intro h <;> omega

/-- A concrete course for exercising the grouping on sample labels. -/
def sampleAppCourse (month : String) : AppCourse :=
  { id := 1, course_code := "CSE101", course_title := "T", course_type := "Core",
    credits := .inr 3, grade := "A", exam_month := month,
    course_distribution := "Regular" }

/-- C5: when every label parses, the groups come out sorted by the
parsed `(year, month)` key — compared year first — and concretely
Jul-2024/Jan-2024 sort to [Jan-2024, Jul-2024] in either input order
while Jan-2025 sorts after Jul-2024 (not lexical string order). -/
theorem groupCoursesBySemester_chronological (courses : List AppCourse)
    (hp : ∀ c ∈ courses, appParseDateKey c.exam_month ≠ none) :
    ((groupCoursesBySemester courses).map (·.semester)).Pairwise
      (fun a b => ∃ x y, appParseDateKey a = some x ∧
        appParseDateKey b = some y ∧ x ≤ y) ∧
    (∀ y1 m1 y2 m2 : Int, 0 ≤ m1 → m1 < 12 → 0 ≤ m2 → m2 < 12 →
      (dateKey y1 m1 ≤ dateKey y2 m2 ↔
        (adjYear y1 < adjYear y2 ∨ (adjYear y1 = adjYear y2 ∧ m1 ≤ m2)))) ∧
    (groupCoursesBySemester [sampleAppCourse "Jul-2024",
        sampleAppCourse "Jan-2024"]).map (·.semester) = ["Jan-2024", "Jul-2024"] ∧
    (groupCoursesBySemester [sampleAppCourse "Jan-2024",
        sampleAppCourse "Jul-2024"]).map (·.semester) = ["Jan-2024", "Jul-2024"] ∧
    (groupCoursesBySemester [sampleAppCourse "Jan-2025",
        sampleAppCourse "Jul-2024"]).map (·.semester) = ["Jul-2024", "Jan-2025"] := by
  refine ⟨?_, dateKey_le_iff, by with_unfolding_all rfl, by with_unfolding_all rfl,
    by with_unfolding_all rfl⟩
  rw [groupCoursesBySemester_labels]
  have hkeys : ∀ s ∈ (groupFold (fun c => c.exam_month) courses).map (·.1),
      appParseDateKey s ≠ none := by
    intro s hs
    obtain ⟨c, hc, rfl⟩ :=
      List.mem_map.mp ((mem_keys_groupFold _ courses s).mp hs)
    exact hp c hc
  have hP : ∀ x ∈ insertionSortLe appLabelLe
      ((groupFold (fun c => c.exam_month) courses).map (·.1)),
      appParseDateKey x ≠ none := fun x hx =>
    hkeys x ((insertionSortLe_perm appLabelLe _).mem_iff.mp hx)
  have htrans : ∀ x y z : String, appParseDateKey x ≠ none →
      appParseDateKey y ≠ none → appParseDateKey z ≠ none →
      appLabelLe x y = true → appLabelLe y z = true → appLabelLe x z = true := by
    intro x y z hx hy hz hxy hyz
    obtain ⟨kx, hkx⟩ := Option.ne_none_iff_exists'.mp hx
    obtain ⟨ky, hky⟩ := Option.ne_none_iff_exists'.mp hy
    obtain ⟨kz, hkz⟩ := Option.ne_none_iff_exists'.mp hz
    simp only [appLabelLe, hkx, hky, hkz, decide_eq_true_eq] at hxy hyz ⊢
    omega
  have htot : ∀ x y : String, appParseDateKey x ≠ none →
      appParseDateKey y ≠ none → appLabelLe x y = true ∨ appLabelLe y x = true := by
    intro x y hx hy
    obtain ⟨kx, hkx⟩ := Option.ne_none_iff_exists'.mp hx
    obtain ⟨ky, hky⟩ := Option.ne_none_iff_exists'.mp hy
    simp only [appLabelLe, hkx, hky, decide_eq_true_eq]
    omega
  have hpair := pairwise_insertionSortLe appLabelLe
    (fun s => appParseDateKey s ≠ none) htrans htot
    ((groupFold (fun c => c.exam_month) courses).map (·.1)) hkeys
  refine List.Pairwise.imp_of_mem ?_ hpair
  intro a b ha hb hab
  obtain ⟨ka, hka⟩ := Option.ne_none_iff_exists'.mp (hP a ha)
  obtain ⟨kb, hkb⟩ := Option.ne_none_iff_exists'.mp (hP b hb)
  refine ⟨ka, kb, hka, hkb, ?_⟩
  simpa only [appLabelLe, hka, hkb, decide_eq_true_eq] using hab

/-- Witness for C5 at a concrete two-semester course list. -/
theorem groupCoursesBySemester_chronological_witness :
    (∀ c ∈ [sampleAppCourse "Jul-2024", sampleAppCourse "Jan-2024"],
      appParseDateKey c.exam_month ≠ none) ∧
    ((groupCoursesBySemester [sampleAppCourse "Jul-2024",
        sampleAppCourse "Jan-2024"]).map (·.semester)).Pairwise
      (fun a b => ∃ x y, appParseDateKey a = some x ∧
        appParseDateKey b = some y ∧ x ≤ y) :=
  ⟨by with_unfolding_all decide,
    (groupCoursesBySemester_chronological _ (by with_unfolding_all decide)).1⟩

/-! ## The client report grouping (`src/components/report/InteractiveReport.tsx`)
and claim C6 -/

/-- The `Course` type of `src/lib/decodePayload.ts`, used by the client
report. -/
structure Course where
  id : Int
  course_code : String
  course_title : String
  course_type : String
  credits : ℚ
  grade : String
  exam_month : String
  course_distribution : String

/-- The zero-based `months` table of `groupBySemester` in
`InteractiveReport.tsx`. -/
def clientMonthIdx (m : String) : Option Nat :=
  if m = "Jan" then some 0 else if m = "Feb" then some 1
  else if m = "Mar" then some 2 else if m = "Apr" then some 3
  else if m = "May" then some 4 else if m = "Jun" then some 5
  else if m = "Jul" then some 6 else if m = "Aug" then some 7
  else if m = "Sep" then some 8 else if m = "Oct" then some 9
  else if m = "Nov" then some 10 else if m = "Dec" then some 11
  else none

/-- Modelled from the spec: JavaScript `Number(str)` (a library routine)
restricted to integer literals — a trimmed empty string is `0`, anything
not fully numeric is `NaN` (`none`); non-integer years do not occur in
this development. -/
def jsNumberInt (s : String) : Option Int :=
  let cs := (s.toList.dropWhile jsWhitespace).reverse.dropWhile jsWhitespace
  let cs := cs.reverse
  match cs with
  | [] => some 0
  | _ =>
      let neg : Bool := cs.head? = some '-'
      let cs1 := match cs with
        | '-' :: t => t
        | '+' :: t => t
        | _ => cs
      if cs1 ≠ [] ∧ cs1.all Char.isDigit then
        some (if neg then -(digitsToNat cs1 : Int) else (digitsToNat cs1 : Int))
      else none

/-- `parseDate` of the client `groupBySemester`: `months[mon] ?? 0`
silently defaults an unknown month abbreviation to index `0` (January);
only a missing or non-numeric year yields an invalid date. -/
def clientParseDateKey (label : String) : Option Int :=
  let parts := splitOnChar '-' label.toList
  let monthIdx : Nat := (clientMonthIdx ⟨parts.headD []⟩).getD 0
  let yearVal : Option Int :=
    match parts.drop 1 with
    | [] => none
    | y :: _ => jsNumberInt ⟨y⟩
  yearVal.map (fun y => dateKey y (monthIdx : Int))

/-- The client sort comparator as a Boolean order (`NaN` differences
compare as equal, as in `appLabelLe`). -/
def clientLabelLe (a b : String) : Bool :=
  match clientParseDateKey a, clientParseDateKey b with
  | some x, some y => decide (x ≤ y)
  | _, _ => true

/-- `calculateSemesterGPA` from `InteractiveReport.tsx` (credits are
already numbers; the final guard is JavaScript truthiness of
`totalCredits`). -/
def clientCalculateSemesterGPA (courses : List Course) : ℚ :=
  let valid := courses.filter (fun c => c.grade != "P")
  if valid.length = 0 then 0
  else
    let totalPoints := valid.foldl (fun s c => s + gradePoints c.grade * c.credits) 0
    let totalCredits := valid.foldl (fun s c => s + c.credits) 0
    if totalCredits ≠ 0 then totalPoints / totalCredits else 0

/-- The per-semester group emitted by the client `groupBySemester`. -/
structure ClientSemesterGroup where
  semester : String
  courses : List Course
  gpa : ℚ

/-- `groupBySemester` from `InteractiveReport.tsx`. -/
def groupBySemester (courses : List Course) : List ClientSemesterGroup :=
  let m := groupFold (fun c => c.exam_month) courses
  let semesters := insertionSortLe clientLabelLe (m.map (·.1))
  semesters.map (fun s =>
    { semester := s
      courses := (mapLookup m s).getD []
      gpa := clientCalculateSemesterGPA ((mapLookup m s).getD []) })

/-- A concrete client course for exercising the grouping. -/
def sampleCourse (month : String) : Course :=
  { id := 1, course_code := "CSE101", course_title := "T", course_type := "Core",
    credits := 3, grade := "A", exam_month := month,
    course_distribution := "Regular" }

/-- C6 counterexample: a list containing the unknown month label
`"Foo-2024"` is grouped without any error; the unknown label is given
the default January key — it sorts before `"Mar-2024"` — instead of
raising a `FormatError`. -/
theorem groupBySemester_unknown_month_counterexample :
    (groupBySemester [sampleCourse "Mar-2024", sampleCourse "Foo-2024"]).map
        (·.semester) = ["Foo-2024", "Mar-2024"] ∧
    clientParseDateKey "Foo-2024" = clientParseDateKey "Jan-2024" := by
  constructor
  · with_unfolding_all rfl
  · with_unfolding_all rfl

/-- The semester labels of the client grouping are the sorted first-seen
keys. -/
theorem groupBySemester_labels (courses : List Course) :
    (groupBySemester courses).map (·.semester) =
      insertionSortLe clientLabelLe
        ((groupFold (fun c => c.exam_month) courses).map (·.1)) := by
  simp only [groupBySemester, List.map_map]
  exact List.map_id _

/-- C6 (amended): unknown month abbreviations raise no error of any
kind: the grouping is total, every input course's label still receives a
group (labels pairwise distinct), and an unknown abbreviation is
silently keyed as month index `0`, so `"Foo-2024"` occupies exactly the
position of `"Jan-2024"` in the order. -/
theorem groupBySemester_unknown_month_default (courses : List Course) :
    (∀ c ∈ courses, c.exam_month ∈ (groupBySemester courses).map (·.semester)) ∧
    ((groupBySemester courses).map (·.semester)).Nodup ∧
    clientParseDateKey "Foo-2024" = some (dateKey 2024 0) ∧
    clientParseDateKey "Jan-2024" = some (dateKey 2024 0) := by
  have hperm := insertionSortLe_perm clientLabelLe
    ((groupFold (fun c => c.exam_month) courses).map (·.1))
  refine ⟨?_, ?_, by with_unfolding_all rfl, by with_unfolding_all rfl⟩
  · intro c hc
    rw [groupBySemester_labels]
    have hm : c.exam_month ∈ courses.map (fun c => c.exam_month) :=
      List.mem_map.mpr ⟨c, hc, rfl⟩
    exact hperm.mem_iff.mpr ((mem_keys_groupFold _ courses _).mpr hm)
  · rw [groupBySemester_labels]
    exact hperm.nodup_iff.mpr (keys_groupFold_nodup _ courses)
